import Mathlib

/-!
Verification of the article-normalization pipeline of the `nonnon_py`
repository.  The Python sources under `src/` are shallowly embedded as
executable Lean definitions: BeautifulSoup documents become a mutual
inductive tree of elements and text nodes, the regular expressions of
`config.py` become decidable predicates over character lists, and the
standard-library helpers the code calls (`urllib.parse`, `str.strip`,
`re.sub`) are modelled from their documented behaviour on the inputs the
code feeds them.  Stateful tree mutation becomes pure tree
transformation; fallible persistence calls return `Except`.
-/

/-! ## Character and string helpers

Models of the Python string primitives used by the sources.  All heavy
lifting is done on `List Char`; `String` wrappers appear at the points
where the Python code works with attribute values.
-/

/-- Python `\s` / `str.strip` whitespace set (ASCII part, which is all the
pipeline's inputs use). -/
def isSpaceChar (c : Char) : Bool :=
  c = ' ' || c = '\t' || c = '\n' || c = '\r' || c = '\x0b' || c = '\x0c'

/-- ASCII lower-casing of one character, model of Python `str.lower` on the
ASCII range used by hostnames, file extensions and URLs. -/
def lowerChar (c : Char) : Char :=
  if 'A' ≤ c ∧ c ≤ 'Z' then Char.ofNat (c.toNat + 32) else c

/-- Lower-case a character list. -/
def lowerL (l : List Char) : List Char := l.map lowerChar

/-- Does `l` start with `p`? -/
def listStartsWith : List Char → List Char → Bool
  | _, [] => true
  | [], _ :: _ => false
  | a :: as, b :: bs => a = b && listStartsWith as bs

/-- Does `l` end with `suf`? -/
def listEndsWith (l suf : List Char) : Bool :=
  listStartsWith l.reverse suf.reverse

/-- Model of Python `str.strip()` on a character list. -/
def stripL (l : List Char) : List Char :=
  ((l.dropWhile isSpaceChar).reverse.dropWhile isSpaceChar).reverse

/-- Model of Python `str.strip()`. -/
def strip (s : String) : String := String.mk (stripL s.data)

/-- Split before the first occurrence of `c`: returns the part before it and,
when `c` occurs, the part after it. -/
def breakOnCharL (c : Char) : List Char → List Char × Option (List Char)
  | [] => ([], none)
  | x :: rest =>
    if x = c then ([], some rest)
    else
      let (a, b) := breakOnCharL c rest
      (x :: a, b)

/-- Split a character list on every occurrence of `c` (model of Python
`str.split(c)`). -/
def splitOnCharL (c : Char) : List Char → List (List Char)
  | [] => [[]]
  | x :: rest =>
    let r := splitOnCharL c rest
    if x = c then [] :: r
    else
      match r with
      | [] => [[x]]
      | h :: t => (x :: h) :: t

/-- Every proper prefix of `l` that ends just before a question mark, in
left-to-right order (used to model the optional query-string group of
`MEDIA_RE`). -/
def prefixesAtQAux (acc : List Char) : List Char → List (List Char)
  | [] => []
  | c :: rest =>
    (if c = '?' then [acc.reverse] else []) ++ prefixesAtQAux (c :: acc) rest

def prefixesAtQ (l : List Char) : List (List Char) := prefixesAtQAux [] l

/-! ## Models of the media regular expressions (`src/config.py`)

`MEDIA_RE = \.(jpe?g|png|gif|webp|mp4|webm|mov|m4v)(\?.*)?$` (IGNORECASE)
`VIDEO_RE = \.(mp4|webm|mov|m4v)$` (IGNORECASE)
Both are used with `.search`, so a match anywhere suffices; because both
patterns are anchored at `$`, `MEDIA_RE` matches exactly when some
extension, preceded by a dot, is followed either by the end of the string
or by a question mark (the query group running to the end), and
`VIDEO_RE` matches exactly when the string ends in a dot-extension.
-/

/-- The media-file extensions of `MEDIA_RE`, each with its leading dot. -/
def mediaExtsL : List (List Char) :=
  [".jpeg".data, ".jpg".data, ".png".data, ".gif".data, ".webp".data,
   ".mp4".data, ".webm".data, ".mov".data, ".m4v".data]

/-- The video extensions of `VIDEO_RE`, each with its leading dot. -/
def videoExtsL : List (List Char) :=
  [".mp4".data, ".webm".data, ".mov".data, ".m4v".data]

/-- Does the (already lower-cased) list end with one of the dotted
extensions? -/
def endsWithAnyExt (l : List Char) (exts : List (List Char)) : Bool :=
  exts.any (fun e => listEndsWith l e)

/-- Model of `config.MEDIA_RE.search` on a string (case-insensitive). -/
def mediaMatchL (l : List Char) : Bool :=
  endsWithAnyExt (lowerL l) mediaExtsL ||
    (prefixesAtQ (lowerL l)).any (fun p => endsWithAnyExt p mediaExtsL)

/-- Model of `config.VIDEO_RE.search` on a string (case-insensitive). -/
def videoMatchL (l : List Char) : Bool :=
  endsWithAnyExt (lowerL l) videoExtsL

def mediaMatch (s : String) : Bool := mediaMatchL s.data

def videoMatch (s : String) : Bool := videoMatchL s.data

/-- `config.LAZY_ATTRS`, the lazy-loading attributes checked in priority
order by `_find_valid_media_url`. -/
def lazyAttrsList : List String := ["data-src", "data-lazy-src", "data-original"]

/-! ## Model of `ArticleRepository.insert_many` (`src/repositories.py`)

The persistence client is abstracted as the `Except` outcome of the
underlying insert call: `.ok rows` is a successful insert returning the
inserted rows, `.error e` is a raised `APIError` carrying the PostgREST
error code. -/

/-- A PostgREST `APIError` as far as `insert_many` inspects it. -/
structure ApiErr where
  code : String
  message : String
  deriving DecidableEq, Repr

/-- Model of `ArticleRepository.insert_many`: empty batches return 0
without touching the client; a duplicate-key error (code 23505) is
logged and reported as 0 inserted; any other `APIError` is re-raised. -/
def insertMany {α β : Type} (articles : List α)
    (dbResult : Except ApiErr (List β)) : Except ApiErr Nat :=
  if articles.isEmpty then Except.ok 0
  else
    match dbResult with
    | Except.ok rows => Except.ok rows.length
    | Except.error e =>
      if e.code = "23505" then Except.ok 0 else Except.error e

/-! ## Model of `fetch_html_text` (`src/utils.py`)

The HTTP layer is abstracted as the outcome of the `httpx` GET: a body on
success, an `HTTPStatusError` after `raise_for_status`, or a
`RequestError`.  Both error branches are caught and the function falls
through to `return ""`; the model is therefore total, which is exactly
the "never raises" behaviour of the source. -/

/-- Outcome of the `httpx` request issued by `fetch_html_text`. -/
inductive FetchOutcome where
  | success (text : String)
  | statusError (code : Nat)
  | requestError (message : String)
  deriving DecidableEq

/-- Index (from the back) of the last newline of `w`, as a count of
characters to consume; `none` when `w` has no newline.  Helper for the
`re.sub(r"\n\s*\n+", "\n", _)` model: a match consumes the leading
newline, then `\s*\n+` extends through the last newline of the maximal
whitespace run that follows it. -/
def nlRunLen (rest : List Char) : Option Nat :=
  let w := rest.takeWhile isSpaceChar
  let idxs := (List.range w.length).filter
    (fun i => match w.get? i with | some '\n' => true | _ => false)
  match idxs.reverse with
  | [] => none
  | i :: _ => some (i + 1)

/-- Model of `_remove_duplicate_empty_line`'s
`re.sub(r"\n\s*\n+", "\n", text)`: each leftmost match — a newline
followed by a whitespace run containing at least one further newline —
collapses to a single newline, and scanning resumes after the match. -/
def rdelAux (l : List Char) : List Char :=
  match l with
  | [] => []
  | c :: rest =>
    if c = '\n' then
      match nlRunLen rest with
      | some n => '\n' :: rdelAux (rest.drop n)
      | none => '\n' :: rdelAux rest
    else c :: rdelAux rest
termination_by l.length
decreasing_by
  · simp only [List.length_cons, List.length_drop]
    omega
  · simp
  · simp

/-- Model of `utils._remove_duplicate_empty_line`. -/
def removeDuplicateEmptyLine (s : String) : String := String.mk (rdelAux s.data)

/-- Model of `utils.fetch_html_text`: the happy path returns the cleaned
body, both caught error branches fall through to `""`. -/
def fetchHtmlText (outcome : FetchOutcome) : String :=
  match outcome with
  | FetchOutcome.success t => removeDuplicateEmptyLine t
  | FetchOutcome.statusError _ => ""
  | FetchOutcome.requestError _ => ""

example : mediaMatch "http://example.com/a.jpg" = true := by decide

example : mediaMatch "http://e.example/v.mp4?t=1" = true := by decide

example : videoMatch "http://e.example/v.mp4?t=1" = false := by decide

example : videoMatch "http://e.example/V.MP4" = true := by decide

/-- C8: for every non-empty batch of articles, a duplicate-key conflict
(error code 23505) raised by the insert is caught and reported as zero
inserted rows instead of propagating, while an `APIError` with any other
code is re-raised to the caller. -/
theorem insertMany_duplicate_key_skipped {α β : Type} (articles : List α)
    (e : ApiErr) (h : articles ≠ []) :
    (e.code = "23505" →
      insertMany (β := β) articles (Except.error e) = Except.ok 0) ∧
    (e.code ≠ "23505" →
      insertMany (β := β) articles (Except.error e) = Except.error e) := by
  have hne : articles.isEmpty = false := by
    cases articles with
    | nil => exact absurd rfl h
    | cons a t => rfl
  constructor
  · intro hc
    simp [insertMany, hne, hc]
  · intro hc
    simp [insertMany, hne, hc]

/-- Witness for `insertMany_duplicate_key_skipped` at a concrete
one-article batch: a 23505 error yields `ok 0`, a 42501 error is
re-raised. -/
theorem insertMany_duplicate_key_skipped_witness :
    insertMany (α := Nat) (β := Nat) [1]
      (Except.error { code := "23505", message := "dup" }) = Except.ok 0 ∧
    insertMany (α := Nat) (β := Nat) [1]
      (Except.error { code := "42501", message := "denied" }) =
      Except.error { code := "42501", message := "denied" } :=
  ⟨(insertMany_duplicate_key_skipped [1] _ (by decide)).1 rfl,
   (insertMany_duplicate_key_skipped [1] _ (by decide)).2 (by decide)⟩

/-- C10: `fetch_html_text` never raises — an HTTP status error and a
request error are both caught and yield the empty string, the same value
a successful fetch of an empty body yields. -/
theorem fetchHtmlText_failure_is_empty_string :
    (∀ code, fetchHtmlText (FetchOutcome.statusError code) = "") ∧
    (∀ msg, fetchHtmlText (FetchOutcome.requestError msg) = "") ∧
    fetchHtmlText (FetchOutcome.success "") = "" := by
  refine ⟨fun code => rfl, fun msg => rfl, ?_⟩
  show removeDuplicateEmptyLine "" = ""
  have h : rdelAux ([] : List Char) = [] := by
    simp [rdelAux]
  show String.mk (rdelAux "".data) = ""
  rw [show "".data = ([] : List Char) from rfl, h]

/-! ## Model of `urllib.parse` (`urlparse`/`urlsplit`, `parse_qs`, `urljoin`)

Modelled from the documented behaviour of Python's `urllib.parse` on the
URL shapes the pipeline feeds it: a scheme is recognised before the first
colon when it starts with a letter and consists of letters, digits, `+`,
`-`, `.`; a netloc follows `//` and runs to the next `/`, `?` or `#`; the
fragment is split on the first `#` of the remainder and the query on the
first `?` before it.  `hostname` lower-cases the netloc after stripping
userinfo (up to the last `@`) and the port (after the first `:`), and is
`None` when empty. -/

structure UrlParts where
  scheme : List Char
  netloc : List Char
  path : List Char
  query : List Char
  fragment : List Char
  deriving DecidableEq, Repr

/-- Is `l` a valid URL scheme body (letter first, then letters, digits,
plus, minus, dot)? -/
def validSchemeL (l : List Char) : Bool :=
  match l with
  | [] => false
  | c :: cs =>
    c.isAlpha && cs.all (fun d => d.isAlphanum || d = '+' || d = '-' || d = '.')

/-- Split off a leading `scheme:` when present. -/
def splitSchemeL (l : List Char) : Option (List Char) × List Char :=
  match breakOnCharL ':' l with
  | (before, some after) =>
    if validSchemeL before then (some (lowerL before), after) else (none, l)
  | (_, none) => (none, l)

/-- Model of `urllib.parse.urlsplit`. -/
def urlsplitL (l : List Char) : UrlParts :=
  let (schemeOpt, rest) := splitSchemeL l
  let (netloc, rest2) :=
    match rest with
    | '/' :: '/' :: r =>
      let nl := r.takeWhile (fun c => !(c = '/' || c = '?' || c = '#'))
      (nl, r.drop nl.length)
    | _ => ([], rest)
  let (beforeFrag, frag) := breakOnCharL '#' rest2
  let (path, q) := breakOnCharL '?' beforeFrag
  { scheme := schemeOpt.getD []
    netloc := netloc
    path := path
    query := q.getD []
    fragment := frag.getD [] }

/-- Model of `urlparse(...).hostname`: netloc after the last `@`, before
the first `:`, lower-cased; `none` when empty. -/
def urlHostnameL (l : List Char) : Option (List Char) :=
  let netloc := (urlsplitL l).netloc
  let afterAt :=
    match (splitOnCharL '@' netloc).reverse with
    | [] => netloc
    | h :: _ => h
  let host := lowerL (breakOnCharL ':' afterAt).1
  if host = [] then none else some host

/-- Model of `urlparse(...).hostname` on strings. -/
def urlHostname (s : String) : Option String :=
  (urlHostnameL s.data).map String.mk

example : urlHostname "https://CDN.Example.com:8080/lib.js" = some "cdn.example.com" := by decide

example : urlHostname "//host.example/x.js" = some "host.example" := by decide

example : urlHostname "/local.js" = none := by decide

example : urlHostname "user@nota.url" = none := by decide

/-- Model of `urllib.parse.parse_qs` flattened to its key/value pairs in
textual order (the code only iterates over all values; with distinct keys
this order agrees with `params.values()`).  Fields without `=` and fields
with an empty value are dropped, as with `keep_blank_values=False`. -/
def parseQsPairsL (q : List Char) : List (List Char × List Char) :=
  (splitOnCharL '&' q).filterMap fun item =>
    match breakOnCharL '=' item with
    | (k, some v) => if v = [] then none else some (k, v)
    | (_, none) => none

/-- The part of `p` through its last slash; when `p` has no slash the
merge base is the root, as for an authority with an empty path. -/
def dirOfPathL (p : List Char) : List Char :=
  if p.contains '/' then ((p.reverse.dropWhile (fun c => c ≠ '/')).reverse)
  else "/".data

/-- Model of `urllib.parse.urljoin` restricted to the reference shapes the
pipeline produces: an empty reference keeps the base, a reference with a
scheme is absolute, `//…` adopts the base scheme, `/…` replaces the path,
and a relative path replaces the last segment of the base path (no
dot-segment handling, which the stitched pages never use). -/
def urljoinL (base url : List Char) : List Char :=
  if url = [] then base
  else
    match (splitSchemeL url).1 with
    | some _ => url
    | none =>
      let bp := urlsplitL base
      let root := bp.scheme ++ "://".data ++ bp.netloc
      match url with
      | '/' :: '/' :: _ => bp.scheme ++ ":".data ++ url
      | '/' :: _ => root ++ url
      | _ => root ++ dirOfPathL bp.path ++ url

/-- Model of `urllib.parse.urljoin` on strings. -/
def urljoin (base url : String) : String :=
  String.mk (urljoinL base.data url.data)

example : urljoin "http://site.example/a/1.html" "b/2.html" = "http://site.example/a/b/2.html" := by decide

example : urljoin "http://site.example/a/b/2.html" "3.html" = "http://site.example/a/b/3.html" := by decide

example : urljoin "http://site.example/a/1.html" "https://other.example/x" = "https://other.example/x" := by decide

example : urljoin "http://site.example/a/1.html" "/top.html" = "http://site.example/top.html" := by decide

/-! ## Model of `_remove_scripts` (`src/extract.py`, the ScriptGate)

A `<script>` element is represented by its optional `src` attribute —
the only datum `_remove_scripts` inspects.  `soup.find_all("script")`
becomes a list, and `decompose()` becomes omission from the result. -/

/-- A `<script>` element as seen by `_remove_scripts`: `src = none` also
stands for a non-string attribute value, which the code treats the same
way. -/
structure ScriptTag where
  src : Option String
  deriving DecidableEq, Repr

/-- Model of `extract._remove_scripts`: a script with no (or blank) `src`
is decomposed; otherwise the hostname of the stripped `src` is parsed and
the script survives only when that hostname is in the allow set — an
unparsable hostname (`None`) is never in the set, and a parse exception
also decomposes, so the gate fails closed. -/
def removeScripts (allowHosts : List String) : List ScriptTag → List ScriptTag
  | [] => []
  | s :: rest =>
    match s.src with
    | none => removeScripts allowHosts rest
    | some v =>
      if strip v = "" then removeScripts allowHosts rest
      else
        match urlHostname (strip v) with
        | none => removeScripts allowHosts rest
        | some h =>
          if h ∈ allowHosts then s :: removeScripts allowHosts rest
          else removeScripts allowHosts rest

/-- C1: a script survives `_remove_scripts` exactly when it was in the
document and carries a `src` that is non-blank after stripping and whose
parsed hostname is a member of the allowed-host set.  In particular
src-less scripts are always removed, and a `src` with no parsable
hostname is removed (fail closed). -/
theorem removeScripts_kept_iff_allowed_host (allowHosts : List String)
    (scripts : List ScriptTag) (s : ScriptTag) :
    s ∈ removeScripts allowHosts scripts ↔
      s ∈ scripts ∧ ∃ v, s.src = some v ∧ strip v ≠ "" ∧
        ∃ h, urlHostname (strip v) = some h ∧ h ∈ allowHosts := by
  induction scripts with
  | nil => simp [removeScripts]
  | cons a rest ih =>
    have step :
        removeScripts allowHosts (a :: rest) =
          (match a.src with
           | none => removeScripts allowHosts rest
           | some v =>
             if strip v = "" then removeScripts allowHosts rest
             else
               match urlHostname (strip v) with
               | none => removeScripts allowHosts rest
               | some h =>
                 if h ∈ allowHosts then a :: removeScripts allowHosts rest
                 else removeScripts allowHosts rest) := rfl
    cases ha : a.src with
    | none =>
      rw [step, ha, ih]
      constructor
      · rintro ⟨hm, hp⟩
        exact ⟨List.mem_cons_of_mem _ hm, hp⟩
      · rintro ⟨hm, v, hv, hrest⟩
        rcases List.mem_cons.mp hm with rfl | hm'
        · rw [ha] at hv; cases hv
        · exact ⟨hm', v, hv, hrest⟩
    | some v =>
      rw [step, ha]
      dsimp only
      by_cases hblank : strip v = ""
      · rw [if_pos hblank, ih]
        constructor
        · rintro ⟨hm, hp⟩
          exact ⟨List.mem_cons_of_mem _ hm, hp⟩
        · rintro ⟨hm, w, hw, hne, hrest⟩
          rcases List.mem_cons.mp hm with rfl | hm'
          · rw [ha] at hw
            cases hw
            exact absurd hblank hne
          · exact ⟨hm', w, hw, hne, hrest⟩
      · rw [if_neg hblank]
        cases hh : urlHostname (strip v) with
        | none =>
          rw [ih]
          constructor
          · rintro ⟨hm, hp⟩
            exact ⟨List.mem_cons_of_mem _ hm, hp⟩
          · rintro ⟨hm, w, hw, hne, h', hh', hmem⟩
            rcases List.mem_cons.mp hm with rfl | hm'
            · rw [ha] at hw
              cases hw
              rw [hh] at hh'
              cases hh'
            · exact ⟨hm', w, hw, hne, h', hh', hmem⟩
        | some h =>
          dsimp only
          by_cases hmem : h ∈ allowHosts
          · rw [if_pos hmem]
            constructor
            · intro hin
              rcases List.mem_cons.mp hin with rfl | hin'
              · exact ⟨List.mem_cons_self _ _, v, ha, hblank, h, hh, hmem⟩
              · rcases ih.mp hin' with ⟨hm, hp⟩
                exact ⟨List.mem_cons_of_mem _ hm, hp⟩
            · rintro ⟨hm, hp⟩
              rcases List.mem_cons.mp hm with rfl | hm'
              · exact List.mem_cons_self _ _
              · exact List.mem_cons_of_mem _ (ih.mpr ⟨hm', hp⟩)
          · rw [if_neg hmem, ih]
            constructor
            · rintro ⟨hm, hp⟩
              exact ⟨List.mem_cons_of_mem _ hm, hp⟩
            · rintro ⟨hm, w, hw, hne, h', hh', hmem'⟩
              rcases List.mem_cons.mp hm with rfl | hm'
              · rw [ha] at hw
                cases hw
                rw [hh] at hh'
                cases hh'
                exact absurd hmem' hmem
              · exact ⟨hm', w, hw, hne, h', hh', hmem'⟩

example :
    removeScripts ["platform.twitter.com"]
      [⟨none⟩, ⟨some "https://platform.twitter.com/widgets.js"⟩,
       ⟨some "https://evil.example/x.js"⟩, ⟨some "  "⟩, ⟨some "not a url"⟩] =
      [⟨some "https://platform.twitter.com/widgets.js"⟩] := by decide

/-! ## The document tree

BeautifulSoup's parse tree is embedded as a mutual inductive of elements
(tag name, ordered attribute list, ordered children) and text nodes.
`NodeList` is a bespoke list so that all tree traversals are mutual
structural recursions that the kernel can evaluate. -/

mutual

inductive Node where
  | text (s : String)
  | elem (tag : String) (attrs : List (String × String)) (children : NodeList)
  deriving DecidableEq, Repr

inductive NodeList where
  | nil
  | cons (n : Node) (l : NodeList)
  deriving DecidableEq, Repr

end

/-- Build a `NodeList` from a Lean list. -/
def NodeList.ofList : List Node → NodeList
  | [] => NodeList.nil
  | n :: l => NodeList.cons n (NodeList.ofList l)

/-- Concatenation of sibling lists. -/
def NodeList.append : NodeList → NodeList → NodeList
  | NodeList.nil, l => l
  | NodeList.cons n t, l => NodeList.cons n (NodeList.append t l)

/-- Attribute lookup, model of `tag.get(name)` (first binding wins). -/
def getAttrV (attrs : List (String × String)) (k : String) : Option String :=
  (attrs.find? (fun p => p.1 == k)).map (fun p => p.2)

/-- Model of Python `str.split()` with no argument: split on whitespace
runs, dropping empty fields — how the HTML parser tokenises the `class`
attribute into its class list. -/
def wordsAux (cur : List Char) : List Char → List (List Char)
  | [] => if cur = [] then [] else [cur.reverse]
  | c :: rest =>
    if isSpaceChar c then
      (if cur = [] then [] else [cur.reverse]) ++ wordsAux [] rest
    else wordsAux (c :: cur) rest

def splitWs (s : String) : List String := (wordsAux [] s.data).map String.mk

/-- Join class tokens with single spaces, model of `" ".join(classes)`. -/
def joinSpace : List String → String
  | [] => ""
  | h :: t => t.foldl (fun acc x => acc ++ " " ++ x) h

/-! ## Model of `_find_valid_media_url` and `_normalize_images`
(`src/extract.py`, the MediaLocator and image-normalization stage) -/

/-- Model of `extract._find_valid_media_url`: the lazy-loading attributes
are tried in `config.LAZY_ATTRS` order, each stripped value is kept when
`MEDIA_RE` matches it; otherwise the stripped `src` is kept when
`MEDIA_RE` matches it and it is not an inline `data:image` URI; otherwise
the result is the empty string. -/
def findValidMediaUrl (attrs : List (String × String)) : String :=
  match (lazyAttrsList.filterMap fun a =>
      match getAttrV attrs a with
      | some v =>
        let c := strip v
        if mediaMatch c then some c else none
      | none => none).head? with
  | some u => u
  | none =>
    match getAttrV attrs "src" with
    | some v =>
      let c := strip v
      if mediaMatch c && !(listStartsWith c.data "data:image".data) then c
      else ""
    | none => ""

/-- Attributes of the canonical `<video>` replacement built by
`_normalize_images` and `_unwrap_anchored_media` (identical in both). -/
def canonicalVideoAttrs (src : String) : List (String × String) :=
  [("src", src), ("controls", ""), ("playsinline", ""),
   ("style", "width:100%;height:auto;display:block;"),
   ("class", "my-formatted"), ("loading", "lazy"),
   ("referrerpolicy", "no-referrer")]

/-- Attributes of the canonical `<img>` replacement built by
`_normalize_images` and `_unwrap_anchored_media` (identical in both). -/
def canonicalImgAttrs (src : String) : List (String × String) :=
  [("src", src), ("loading", "lazy"), ("referrerpolicy", "no-referrer"),
   ("style", "max-width:100%;height:auto;display:block"),
   ("class", "my-formatted")]

def videoCanonicalNode (src : String) : Node :=
  Node.elem "video" (canonicalVideoAttrs src) NodeList.nil

def imgCanonicalNode (src : String) : Node :=
  Node.elem "img" (canonicalImgAttrs src) NodeList.nil

/-- Model of the `class_=lambda c: c != "my-formatted"` filter of
`find_all("img", class_=...)`: a tag with no `class` attribute matches
(the function receives `None`); a tag with classes matches when the
function returns true for one of its class tokens or for the
space-joined class string. -/
def imgClassFilterMatches (attrs : List (String × String)) : Bool :=
  match getAttrV attrs "class" with
  | none => true
  | some c =>
    let toks := splitWs c
    toks.any (fun t => t != "my-formatted") ||
      joinSpace toks != "my-formatted"

mutual

/-- Model of one `_normalize_images` step on a node: a non-formatted
`<img>` is decomposed when `_find_valid_media_url` yields nothing, and
otherwise replaced by the canonical `<video>` (when `VIDEO_RE` matches
the URL) or canonical `<img>`; every other node keeps its tag and
attributes and recurses into its children (where `find_all` also
searches). -/
def normalizeImagesNode : Node → Option Node
  | Node.text s => some (Node.text s)
  | Node.elem t attrs ch =>
    if t == "img" && imgClassFilterMatches attrs then
      let src := findValidMediaUrl attrs
      if src == "" then none
      else if videoMatch src then some (videoCanonicalNode src)
      else some (imgCanonicalNode src)
    else some (Node.elem t attrs (normalizeImagesList ch))

/-- Model of `extract._normalize_images` over a sibling list. -/
def normalizeImagesList : NodeList → NodeList
  | NodeList.nil => NodeList.nil
  | NodeList.cons n rest =>
    match normalizeImagesNode n with
    | none => normalizeImagesList rest
    | some m => NodeList.cons m (normalizeImagesList rest)

end

example :
    normalizeImagesList
      (NodeList.ofList [Node.elem "img" [("data-src", "http://example.com/a.jpg")] NodeList.nil]) =
      NodeList.ofList [imgCanonicalNode "http://example.com/a.jpg"] := by decide

/-! ### Suffix lemmas for the extension regexes -/

lemma listStartsWith_append_self (p r : List Char) :
    listStartsWith (p ++ r) p = true := by
  induction p with
  | nil => cases r <;> rfl
  | cons a as ih => simp [listStartsWith, ih]

lemma listEndsWith_append_self (x s : List Char) :
    listEndsWith (x ++ s) s = true := by
  rw [listEndsWith, List.reverse_append]
  exact listStartsWith_append_self _ _

lemma listStartsWith_barrier (R : List Char) (c : Char) (A s : List Char)
    (h : c ∉ s) : listStartsWith (R ++ c :: A) s = listStartsWith R s := by
  induction R generalizing s with
  | nil =>
    cases s with
    | nil => rfl
    | cons b bs =>
      have hne : c ≠ b := fun hcb => h (hcb ▸ List.mem_cons_self _ _)
      simp [listStartsWith, hne]
  | cons a as ih =>
    cases s with
    | nil => rfl
    | cons b bs =>
      have hbs : c ∉ bs := fun hm => h (List.mem_cons_of_mem _ hm)
      simp [listStartsWith, ih bs hbs]

lemma listEndsWith_barrier (x : List Char) (c : Char) (q s : List Char)
    (h : c ∉ s) : listEndsWith (x ++ c :: q) s = listEndsWith q s := by
  have hrev : c ∉ s.reverse := fun hm => h (List.mem_reverse.mp hm)
  rw [listEndsWith, listEndsWith, List.reverse_append, List.reverse_cons]
  rw [List.append_assoc]
  exact listStartsWith_barrier _ _ _ _ hrev

lemma endsWithAnyExt_barrier (x q : List Char) (exts : List (List Char))
    (h : ∀ e ∈ exts, '?' ∉ e) :
    endsWithAnyExt (x ++ '?' :: q) exts = endsWithAnyExt q exts := by
  induction exts with
  | nil => rfl
  | cons e t ih =>
    have he := h e (List.mem_cons_self _ _)
    have ht : ∀ e' ∈ t, '?' ∉ e' := fun e' hm => h e' (List.mem_cons_of_mem _ hm)
    simp [endsWithAnyExt, List.any_cons] at ih ⊢
    rw [listEndsWith_barrier _ _ _ _ he, ih ht]

lemma lowerL_append (a b : List Char) : lowerL (a ++ b) = lowerL a ++ lowerL b := by
  simp [lowerL]

lemma lowerL_cons (c : Char) (l : List Char) :
    lowerL (c :: l) = lowerChar c :: lowerL l := rfl

/-- `VIDEO_RE` ignores everything left of a question mark: whether it
matches `x ++ "?" ++ q` depends only on `q`. -/
lemma videoMatchL_qmark (x q : List Char) :
    videoMatchL (x ++ '?' :: q) = videoMatchL q := by
  have hq : lowerChar '?' = '?' := by decide
  rw [videoMatchL, videoMatchL, lowerL_append, lowerL_cons, hq]
  exact endsWithAnyExt_barrier _ _ _ (by decide)

/-- `VIDEO_RE` matches any string ending in one of the four dotted video
extensions. -/
lemma videoMatchL_ext (b e : List Char) (he : e ∈ videoExtsL) :
    videoMatchL (b ++ e) = true := by
  have hlow : lowerL e = e := by
    simp only [videoExtsL, List.mem_cons, List.not_mem_nil, or_false] at he
    rcases he with rfl | rfl | rfl | rfl <;> decide
  rw [videoMatchL, lowerL_append, hlow]
  rw [endsWithAnyExt, List.any_eq_true]
  exact ⟨e, he, listEndsWith_append_self _ _⟩

/-- `_normalize_images` distributes over sibling-list concatenation. -/
lemma normalizeImagesList_append : ∀ (l1 l2 : NodeList),
    normalizeImagesList (NodeList.append l1 l2) =
      NodeList.append (normalizeImagesList l1) (normalizeImagesList l2)
  | NodeList.nil, l2 => rfl
  | NodeList.cons n t, l2 => by
    simp only [NodeList.append, normalizeImagesList]
    cases normalizeImagesNode n with
    | none => exact normalizeImagesList_append t l2
    | some m => simp [NodeList.append, normalizeImagesList_append t l2]

/-- C2 counterexample: on the spec's concrete scenario
`<img data-src="http://example.com/a.jpg">` (no `src`), the
image-normalization stage emits a canonical `<img>` whose `src` is the
raw plain-HTTP URL itself — no same-origin proxy rewriting exists in the
code — contradicting the claim that the output src is the
proxy-rewritten form and "not the raw http:// URL". -/
theorem normalizeImages_http_url_kept_raw_cex :
    normalizeImagesList
        (NodeList.ofList
          [Node.elem "img" [("data-src", "http://example.com/a.jpg")] NodeList.nil]) =
      NodeList.ofList [imgCanonicalNode "http://example.com/a.jpg"] ∧
    getAttrV (canonicalImgAttrs "http://example.com/a.jpg") "src" =
      some "http://example.com/a.jpg" ∧
    listStartsWith "http://example.com/a.jpg".data "http://".data = true := by
  refine ⟨by decide, by decide, by decide⟩

/-- C2 amended: for input `<img data-src="http://example.com/a.jpg">`
with no `src`, the stage outputs a canonical `<img>` carrying the
`my-formatted` marker class whose `src` is the resolved media URL
verbatim; plain-HTTP URLs are kept as-is (the code performs no proxy
rewriting). -/
theorem normalizeImages_http_img_no_proxy :
    normalizeImagesList
        (NodeList.ofList
          [Node.elem "img" [("data-src", "http://example.com/a.jpg")] NodeList.nil]) =
      NodeList.ofList
        [Node.elem "img" (canonicalImgAttrs "http://example.com/a.jpg") NodeList.nil] ∧
    getAttrV (canonicalImgAttrs "http://example.com/a.jpg") "class" =
      some "my-formatted" ∧
    getAttrV (canonicalImgAttrs "http://example.com/a.jpg") "src" =
      some "http://example.com/a.jpg" := by
  refine ⟨by decide, by decide, by decide⟩

/-- C9: an `<img>` that matches the non-formatted filter but whose lazy
attributes and `src` yield no `MEDIA_RE` URL (for example an `<img>`
with no `src` at all) is decomposed: the stage output is the
normalization of the surrounding siblings with the image gone. -/
theorem normalizeImages_drops_unresolvable_imgs
    (attrs : List (String × String)) (ch : NodeList) (pre post : NodeList)
    (h1 : imgClassFilterMatches attrs = true)
    (h2 : findValidMediaUrl attrs = "") :
    normalizeImagesList
        (NodeList.append pre (NodeList.cons (Node.elem "img" attrs ch) post)) =
      NodeList.append (normalizeImagesList pre) (normalizeImagesList post) := by
  have hn : normalizeImagesNode (Node.elem "img" attrs ch) = none := by
    simp [normalizeImagesNode, h1, h2]
  rw [normalizeImagesList_append]
  congr 1
  simp only [normalizeImagesList, hn]

/-- Witness for `normalizeImages_drops_unresolvable_imgs`: a src-less
`<img alt="x">` between two text nodes disappears from the output. -/
theorem normalizeImages_drops_unresolvable_imgs_witness :
    normalizeImagesList
        (NodeList.append (NodeList.ofList [Node.text "a"])
          (NodeList.cons (Node.elem "img" [("alt", "x")] NodeList.nil)
            (NodeList.ofList [Node.text "b"]))) =
      NodeList.append (normalizeImagesList (NodeList.ofList [Node.text "a"]))
        (normalizeImagesList (NodeList.ofList [Node.text "b"])) :=
  normalizeImages_drops_unresolvable_imgs [("alt", "x")] NodeList.nil _ _
    (by decide) (by decide)

/-- C6 counterexample: `http://e.example/v.mp4?t=1` is a resolved media
URL (it matches `MEDIA_RE`, whose optional query group accepts the
`?t=1`), yet `VIDEO_RE` has no query group, so the URL classifies as
Image and `_normalize_images` replaces the element with a canonical
`<img>` — not the canonical `<video>` the claim requires for `.mp4`
URLs "with an optional query string". -/
theorem video_query_url_classified_as_image_cex :
    mediaMatch "http://e.example/v.mp4?t=1" = true ∧
    videoMatch "http://e.example/v.mp4?t=1" = false ∧
    normalizeImagesList
        (NodeList.ofList
          [Node.elem "img" [("data-src", "http://e.example/v.mp4?t=1")] NodeList.nil]) =
      NodeList.ofList [imgCanonicalNode "http://e.example/v.mp4?t=1"] := by
  refine ⟨by decide, by decide, by decide⟩

/-- C6 amended: classification is by extension over the full URL string:
a resolved URL is replaced by the canonical `<video>` exactly when
`VIDEO_RE` matches, i.e. when the URL ends (case-insensitively, with NO
trailing query string) in `.mp4`/`.webm`/`.mov`/`.m4v`; the video check
on a URL containing `?` depends only on the part after the question
mark, so a video extension followed by a query string classifies as
Image; every other `MEDIA_RE` URL (the image extensions, query string
allowed) is replaced by the canonical `<img>`. -/
theorem media_classification_by_extension :
    (∀ (attrs : List (String × String)) (ch post : NodeList) (src : String),
      imgClassFilterMatches attrs = true →
      findValidMediaUrl attrs = src → src ≠ "" →
      normalizeImagesList (NodeList.cons (Node.elem "img" attrs ch) post) =
        NodeList.cons
          (if videoMatch src then videoCanonicalNode src else imgCanonicalNode src)
          (normalizeImagesList post)) ∧
    (∀ (b e : List Char), e ∈ videoExtsL → videoMatchL (b ++ e) = true) ∧
    (∀ (x q : List Char), videoMatchL (x ++ '?' :: q) = videoMatchL q) := by
  refine ⟨?_, videoMatchL_ext, videoMatchL_qmark⟩
  intro attrs ch post src h1 h2 h3
  have hsrc : (src == "") = false := by
    cases hb : src == "" with
    | false => rfl
    | true => exact absurd (by simpa using hb) h3
  have hn : normalizeImagesNode (Node.elem "img" attrs ch) =
      some (if videoMatch src then videoCanonicalNode src else imgCanonicalNode src) := by
    simp only [normalizeImagesNode, h1, h2, hsrc]
    simp
    split <;> simp
  simp only [normalizeImagesList, hn]

/-- Witness for `media_classification_by_extension` at the concrete
query-string video URL: the replacement is the Image branch. -/
theorem media_classification_by_extension_witness :
    normalizeImagesList
        (NodeList.cons
          (Node.elem "img" [("data-src", "http://e.example/v.mp4?t=1")] NodeList.nil)
          NodeList.nil) =
      NodeList.cons
        (if videoMatch "http://e.example/v.mp4?t=1" then
          videoCanonicalNode "http://e.example/v.mp4?t=1"
        else imgCanonicalNode "http://e.example/v.mp4?t=1")
        (normalizeImagesList NodeList.nil) ∧
    videoMatchL ("v".data ++ ".mp4".data) = true ∧
    videoMatchL ("v.mp4".data ++ '?' :: "t=1".data) = videoMatchL "t=1".data :=
  ⟨media_classification_by_extension.1 _ _ _ _ (by decide) (by decide) (by decide),
   media_classification_by_extension.2.1 _ _ (by decide),
   media_classification_by_extension.2.2 _ _⟩

/-! ### Idempotence of `_normalize_images` -/

lemma imgClassFilterMatches_canonicalImg (src : String) :
    imgClassFilterMatches (canonicalImgAttrs src) = false := rfl

lemma normalizeImagesNode_imgCanonical (src : String) :
    normalizeImagesNode (imgCanonicalNode src) = some (imgCanonicalNode src) := by
  simp [normalizeImagesNode, imgCanonicalNode, imgClassFilterMatches_canonicalImg,
    normalizeImagesList]

lemma normalizeImagesNode_videoCanonical (src : String) :
    normalizeImagesNode (videoCanonicalNode src) = some (videoCanonicalNode src) := by
  simp [normalizeImagesNode, videoCanonicalNode, normalizeImagesList]

/-- C5 amended: `_normalize_images` is idempotent — every replacement it
produces carries the `my-formatted` marker class and is skipped by the
`class_` filter on a second pass, so running the image-normalization
pass twice equals running it once on every document. -/
theorem normalizeImagesList_idempotent : ∀ (l : NodeList),
    normalizeImagesList (normalizeImagesList l) = normalizeImagesList l
  | NodeList.nil => rfl
  | NodeList.cons (Node.text s) rest => by
    simp only [normalizeImagesList, normalizeImagesNode]
    rw [normalizeImagesList_idempotent rest]
  | NodeList.cons (Node.elem t attrs ch) rest => by
    cases hc : t == "img" && imgClassFilterMatches attrs with
    | false =>
      have hn : normalizeImagesNode (Node.elem t attrs ch) =
          some (Node.elem t attrs (normalizeImagesList ch)) := by
        simp [normalizeImagesNode, hc]
      have hn2 : normalizeImagesNode (Node.elem t attrs (normalizeImagesList ch)) =
          some (Node.elem t attrs (normalizeImagesList (normalizeImagesList ch))) := by
        simp [normalizeImagesNode, hc]
      simp only [normalizeImagesList, hn, hn2]
      rw [normalizeImagesList_idempotent ch, normalizeImagesList_idempotent rest]
    | true =>
      cases hs : findValidMediaUrl attrs == "" with
      | true =>
        have hn : normalizeImagesNode (Node.elem t attrs ch) = none := by
          simp only [normalizeImagesNode, hc, hs]
          simp
        simp only [normalizeImagesList, hn]
        exact normalizeImagesList_idempotent rest
      | false =>
        cases hv : videoMatch (findValidMediaUrl attrs) with
        | true =>
          have hn : normalizeImagesNode (Node.elem t attrs ch) =
              some (videoCanonicalNode (findValidMediaUrl attrs)) := by
            simp only [normalizeImagesNode, hc, hs, hv]
            simp
          simp only [normalizeImagesList, hn, normalizeImagesNode_videoCanonical]
          rw [normalizeImagesList_idempotent rest]
        | false =>
          have hn : normalizeImagesNode (Node.elem t attrs ch) =
              some (imgCanonicalNode (findValidMediaUrl attrs)) := by
            simp only [normalizeImagesNode, hc, hs, hv]
            simp
          simp only [normalizeImagesList, hn, normalizeImagesNode_imgCanonical]
          rw [normalizeImagesList_idempotent rest]

/-! ## Model of `_unwrap_anchored_media` (`src/extract.py`, the
EmbedUnwrapper's anchored-media branch)

The source iterates `soup.select("a, p, div.wp-video")` in document
order and replaces a matched wrapper in place; descendants of a wrapper
that is not replaced are themselves visited later, which the recursive
traversal below reproduces.  The trailing `video:has(source)` loop that
hoists a `<source>` URL onto its `<video>` parent is modelled by
`hoistList`. -/

mutual

/-- Does the node or one of its descendants carry an `<iframe>` tag
(model of `elem.find("iframe")` applied to a child)? -/
def nodeHasIframe : Node → Bool
  | Node.text _ => false
  | Node.elem t _ ch => t == "iframe" || listHasIframe ch

def listHasIframe : NodeList → Bool
  | NodeList.nil => false
  | NodeList.cons n rest => nodeHasIframe n || listHasIframe rest

end

mutual

/-- First `<img>`/`<video>`/`<source>` descendant in document order
(model of `elem.find(("img", "video", "source"))`), returning its
attributes. -/
def nodeFirstMedia : Node → Option (List (String × String))
  | Node.text _ => none
  | Node.elem t attrs ch =>
    if t == "img" || t == "video" || t == "source" then some attrs
    else listFirstMedia ch

def listFirstMedia : NodeList → Option (List (String × String))
  | NodeList.nil => none
  | NodeList.cons n rest =>
    match nodeFirstMedia n with
    | some a => some a
    | none => listFirstMedia rest

end

mutual

/-- First non-empty `_find_valid_media_url` over all
`<img>`/`<video>`/`<source>` descendants in document order (model of
the `find_all` loop with `break` in the paragraph branch). -/
def nodeFirstValidUrl : Node → String
  | Node.text _ => ""
  | Node.elem t attrs ch =>
    if t == "img" || t == "video" || t == "source" then
      let u := findValidMediaUrl attrs
      if u != "" then u else listFirstValidUrl ch
    else listFirstValidUrl ch

def listFirstValidUrl : NodeList → String
  | NodeList.nil => ""
  | NodeList.cons n rest =>
    let u := nodeFirstValidUrl n
    if u != "" then u else listFirstValidUrl rest

end

mutual

/-- Concatenation of the stripped text descendants (model of
`elem.get_text(strip=True)`). -/
def nodeTextStrip : Node → String
  | Node.text s => strip s
  | Node.elem _ _ ch => listTextStrip ch

def listTextStrip : NodeList → String
  | NodeList.nil => ""
  | NodeList.cons n rest => nodeTextStrip n ++ listTextStrip rest

end

/-- Does the element have a direct text child that is non-blank after
stripping (model of the `NavigableString` check over `elem.contents`)? -/
def hasSignificantText : NodeList → Bool
  | NodeList.nil => false
  | NodeList.cons (Node.text s) rest =>
    strip s != "" || hasSignificantText rest
  | NodeList.cons (Node.elem _ _ _) rest => hasSignificantText rest

/-- Does the element match the `"a, p, div.wp-video"` selector? -/
def selectorMatchAPDiv (t : String) (attrs : List (String × String)) : Bool :=
  t == "a" || t == "p" ||
    (t == "div" && (splitWs ((getAttrV attrs "class").getD "")).contains "wp-video")

/-- Text fallback of the anchor branch: the anchor's stripped text, kept
when it starts with `http` (lower-cased) and `MEDIA_RE` matches it. -/
def aTextFallback (ch : NodeList) : String :=
  let txt := listTextStrip ch
  if listStartsWith (lowerL txt.data) "http".data && mediaMatch txt then txt
  else ""

/-- URL resolution of the anchor branch of `_unwrap_anchored_media`:
first a query-string parameter value of the href that starts with
`http` and matches `MEDIA_RE`; then the href itself when `MEDIA_RE`
matches; then the first nested media element's `_find_valid_media_url`;
finally the anchor text. -/
def aBranchUrl (attrs : List (String × String)) (ch : NodeList) : String :=
  let href := match getAttrV attrs "href" with
    | some s => strip s
    | none => ""
  let fromParams : Option String :=
    if href != "" then
      ((parseQsPairsL (urlsplitL href.data).query).filterMap fun pv =>
        if listStartsWith (lowerL pv.2) "http".data && mediaMatchL pv.2 then
          some (String.mk pv.2)
        else none).head?
    else none
  match fromParams with
  | some u => u
  | none =>
    if mediaMatch href then href
    else
      match listFirstMedia ch with
      | some mattrs =>
        let found := findValidMediaUrl mattrs
        if found != "" then found else aTextFallback ch
      | none => aTextFallback ch

/-- The canonical replacement for a resolved media URL: `<video>` when
`VIDEO_RE` matches or the URL path ends in `.mp4`/`.webm`/`.mov`/`.ogv`,
else `<img>`. -/
def unwrapReplacement (url : String) : Node :=
  let pathLower := lowerL (urlsplitL url.data).path
  let isVideoByExtension :=
    listEndsWith pathLower ".mp4".data || listEndsWith pathLower ".webm".data ||
      listEndsWith pathLower ".mov".data || listEndsWith pathLower ".ogv".data
  if videoMatch url || isVideoByExtension then videoCanonicalNode url
  else imgCanonicalNode url

/-- The per-element decision of `_unwrap_anchored_media`: skip wrappers
containing an iframe; anchors resolve a URL via `aBranchUrl`, paragraph
or `div.wp-video` wrappers are skipped when they have significant direct
text and otherwise take the first valid nested media URL; a resolved URL
matching `MEDIA_RE` replaces the whole wrapper. -/
def unwrapDecision (t : String) (attrs : List (String × String))
    (ch : NodeList) : Option Node :=
  if listHasIframe ch then none
  else
    let url :=
      if t == "a" then aBranchUrl attrs ch
      else if hasSignificantText ch then ""
      else listFirstValidUrl ch
    if url != "" && mediaMatch url then some (unwrapReplacement url) else none

mutual

def unwrapNode : Node → Node
  | Node.text s => Node.text s
  | Node.elem t attrs ch =>
    if selectorMatchAPDiv t attrs then
      match unwrapDecision t attrs ch with
      | some m => m
      | none => Node.elem t attrs (unwrapList ch)
    else Node.elem t attrs (unwrapList ch)

def unwrapList : NodeList → NodeList
  | NodeList.nil => NodeList.nil
  | NodeList.cons n rest => NodeList.cons (unwrapNode n) (unwrapList rest)

end

mutual

/-- Does the node or a descendant carry a `<source>` tag (model of the
`:has(source)` part of the `video:has(source)` selector)? -/
def nodeHasSource : Node → Bool
  | Node.text _ => false
  | Node.elem t _ ch => t == "source" || listHasSource ch

def listHasSource : NodeList → Bool
  | NodeList.nil => false
  | NodeList.cons n rest => nodeHasSource n || listHasSource rest

end

mutual

/-- First descendant `<source>` that has a `src` attribute (model of
`video_el.find("source", src=True)`), returning that attribute. -/
def nodeFirstSourceSrc : Node → Option String
  | Node.text _ => none
  | Node.elem t attrs ch =>
    if t == "source" && (getAttrV attrs "src").isSome then getAttrV attrs "src"
    else listFirstSourceSrc ch

def listFirstSourceSrc : NodeList → Option String
  | NodeList.nil => none
  | NodeList.cons n rest =>
    match nodeFirstSourceSrc n with
    | some v => some v
    | none => listFirstSourceSrc rest

end

/-- Is the element's own `src` attribute truthy (present and
non-empty)? -/
def videoSrcTruthy (attrs : List (String × String)) : Bool :=
  match getAttrV attrs "src" with
  | some s => s != ""
  | none => false

/-- Attribute update preserving position, appending new keys (dict-like
`tag[attr] = value` semantics). -/
def setAttr (attrs : List (String × String)) (k v : String) :
    List (String × String) :=
  if (attrs.find? (fun p => p.1 == k)).isSome then
    attrs.map (fun p => if p.1 == k then (k, v) else p)
  else attrs ++ [(k, v)]

/-- The attribute rewrite of the `video:has(source)` hoist: set `src`,
append `my-formatted` to the class list when missing, then set
`controls`, `playsinline` and the layout style. -/
def videoHoistAttrs (attrs : List (String × String)) (src : String) :
    List (String × String) :=
  let a1 := setAttr attrs "src" src
  let cls := match getAttrV attrs "class" with
    | some c => splitWs c
    | none => []
  let cls' := if cls.contains "my-formatted" then cls else cls ++ ["my-formatted"]
  let a2 := setAttr a1 "class" (joinSpace cls')
  let a3 := setAttr a2 "controls" ""
  let a4 := setAttr a3 "playsinline" ""
  setAttr a4 "style" "width:100%;height:auto;display:block;"

mutual

/-- Model of the trailing `video:has(source)` loop: a `<video>` without
a truthy `src` but with a `<source>` descendant carrying `src` gets that
URL hoisted onto itself, the marker class appended, playback attributes
set, and its children cleared. -/
def hoistNode : Node → Node
  | Node.text s => Node.text s
  | Node.elem t attrs ch =>
    if t == "video" && !videoSrcTruthy attrs && listHasSource ch then
      match listFirstSourceSrc ch with
      | some v => Node.elem "video" (videoHoistAttrs attrs (strip v)) NodeList.nil
      | none => Node.elem t attrs (hoistList ch)
    else Node.elem t attrs (hoistList ch)

def hoistList : NodeList → NodeList
  | NodeList.nil => NodeList.nil
  | NodeList.cons n rest => NodeList.cons (hoistNode n) (hoistList rest)

end

/-- Model of the whole `extract._unwrap_anchored_media`. -/
def unwrapAnchoredMedia (l : NodeList) : NodeList := hoistList (unwrapList l)

/-- The embed-unwrapping plus image-normalization stage in pipeline
order (`_unwrap_anchored_media` then `_normalize_images`). -/
def embedStage (l : NodeList) : NodeList :=
  normalizeImagesList (unwrapAnchoredMedia l)

example :
    embedStage
        (NodeList.ofList
          [Node.elem "p" []
            (NodeList.ofList
              [Node.elem "a" [("href", "http://h.example/x.jpg")] NodeList.nil])]) =
      NodeList.ofList
        [Node.elem "p" []
          (NodeList.ofList [imgCanonicalNode "http://h.example/x.jpg"])] := by decide

example :
    embedStage
        (NodeList.ofList
          [Node.elem "p" []
            (NodeList.ofList [imgCanonicalNode "http://h.example/x.jpg"])]) =
      NodeList.ofList [imgCanonicalNode "http://h.example/x.jpg"] := by decide

/-- C5 counterexample: the combined embed-unwrapping and
image-normalization stage is not idempotent.  On
`<p><a href="http://h.example/x.jpg"></a></p>` the first pass keeps the
`<p>` wrapper (it finds no media descendant before the anchor is
replaced) and replaces the anchor with a marked canonical `<img>`; the
second pass sees a `<p>` with no significant text whose descendant
`<img>` — although it carries the `my-formatted` marker —
yields a valid media URL, so `_unwrap_anchored_media` replaces the
`<p>` itself, and the output of the second pass differs from the first. -/
theorem embedStage_not_idempotent_cex :
    embedStage
        (embedStage
          (NodeList.ofList
            [Node.elem "p" []
              (NodeList.ofList
                [Node.elem "a" [("href", "http://h.example/x.jpg")] NodeList.nil])])) ≠
      embedStage
        (NodeList.ofList
          [Node.elem "p" []
            (NodeList.ofList
              [Node.elem "a" [("href", "http://h.example/x.jpg")] NodeList.nil])]) := by
  decide

/-! ## Model of `_collapse_excessive_brs` (`src/extract.py`)

The function is modelled on the children of one container element (the
sibling-adjacency test `prev_br.find_next_sibling() == current_br` can
only hold for nodes sharing a parent, so containers are processed
independently).  `find_all("br")` becomes the list of `<br>` positions,
`find_next_sibling()` becomes the position of the next element node
(tags only — text nodes are skipped, exactly as in BeautifulSoup), the
Python grouping loop is transcribed directly, and `decompose()` of
`group[max_consecutive:]` becomes dropping those positions. -/

def brNode : Node := Node.elem "br" [] NodeList.nil

def isTagNode : Node → Bool
  | Node.elem _ _ _ => true
  | Node.text _ => false

def isBrNode : Node → Bool
  | Node.elem t _ _ => t == "br"
  | Node.text _ => false

/-- Positions (indices from `k`) of the `<br>` children. -/
def brPositionsAux (k : Nat) : List Node → List Nat
  | [] => []
  | n :: rest => (if isBrNode n then [k] else []) ++ brPositionsAux (k + 1) rest

def brPositions (l : List Node) : List Nat := brPositionsAux 0 l

def nextTagPosAux (k : Nat) : List Node → Option Nat
  | [] => none
  | n :: rest => if isTagNode n then some k else nextTagPosAux (k + 1) rest

/-- Position of the next sibling element after position `i` (model of
`find_next_sibling()` with no arguments, which skips strings). -/
def nextTagPos (l : List Node) (i : Nat) : Option Nat :=
  nextTagPosAux (i + 1) (l.drop (i + 1))

/-- The Python grouping loop: `current` holds the group under
construction in reverse (head = previously seen `<br>`); a group is kept
only when it has more than one member. -/
def groupBrsAux (adj : Nat → Nat → Bool) :
    List Nat → List Nat → List (List Nat) → List (List Nat)
  | [], current, acc =>
    acc ++ (if current.length > 1 then [current.reverse] else [])
  | b :: bs, current, acc =>
    match current with
    | [] => groupBrsAux adj bs [b] acc
    | prev :: _ =>
      if adj prev b then groupBrsAux adj bs (b :: current) acc
      else
        groupBrsAux adj bs [b]
          (acc ++ (if current.length > 1 then [current.reverse] else []))

def groupBrs (adj : Nat → Nat → Bool) : List Nat → List (List Nat)
  | [] => []
  | b :: bs => groupBrsAux adj bs [b] []

def containsNat (l : List Nat) (k : Nat) : Bool := l.any (fun j => j == k)

/-- Drop the children whose position is listed in `rem`. -/
def removePosAux (rem : List Nat) (k : Nat) : List Node → List Node
  | [] => []
  | n :: rest =>
    (if containsNat rem k then [] else [n]) ++ removePosAux rem (k + 1) rest

/-- Model of `extract._collapse_excessive_brs` on a container's child
list; the pipeline calls it with `max_consecutive = 2`. -/
def collapseBrs (maxConsecutive : Nat) (l : List Node) : List Node :=
  if brPositions l = [] then l
  else
    removePosAux
      (((groupBrs (fun p c => nextTagPos l p == some c) (brPositions l)).map
          (fun g => g.drop maxConsecutive)).flatten) 0 l

example :
    collapseBrs 2 [brNode, brNode, brNode, brNode, brNode] = [brNode, brNode] := by
  decide

example :
    collapseBrs 2
        [brNode, brNode, brNode, Node.elem "p" [] NodeList.nil,
         brNode, brNode, brNode] =
      [brNode, brNode, Node.elem "p" [] NodeList.nil, brNode, brNode] := by
  decide

/-- C7 counterexample: three `<br>` elements each separated by
non-blank text are three runs of length 1 for the claim, so all three
should survive with max = 2; but `find_next_sibling()` skips text nodes,
the three `<br>`s are grouped as one run, and the third one is removed. -/
theorem collapseBrs_text_separated_cex :
    (([Node.text "a", brNode, Node.text "b", brNode, Node.text "c", brNode,
       Node.text "d"] : List Node).countP (fun n => isBrNode n) = 3) ∧
    collapseBrs 2
        [Node.text "a", brNode, Node.text "b", brNode, Node.text "c", brNode,
         Node.text "d"] =
      [Node.text "a", brNode, Node.text "b", brNode, Node.text "c",
       Node.text "d"] ∧
    ((collapseBrs 2
        [Node.text "a", brNode, Node.text "b", brNode, Node.text "c", brNode,
         Node.text "d"]).countP (fun n => isBrNode n) = 2) := by
  refine ⟨by decide, by decide, by decide⟩

/-! ### The run-capping property of `_collapse_excessive_brs` -/

/-- `natRange k n = [k, k+1, …, k+n-1]`. -/
def natRange (k : Nat) : Nat → List Nat
  | 0 => []
  | n + 1 => k :: natRange (k + 1) n

lemma natRange_mem : ∀ (n a j : Nat), j ∈ natRange a n ↔ a ≤ j ∧ j < a + n := by
  intro n
  induction n with
  | zero => intro a j; simp [natRange]
  | succ m ih => intro a j; simp [natRange, ih]; omega

lemma containsNat_iff (l : List Nat) (k : Nat) : containsNat l k = true ↔ k ∈ l := by
  simp [containsNat, List.any_eq_true]

lemma natRange_drop : ∀ (n k m : Nat), (natRange k n).drop m = natRange (k + m) (n - m) := by
  intro n
  induction n with
  | zero => intro k m; simp [natRange]
  | succ n ih =>
    intro k m
    cases m with
    | zero => simp [natRange]
    | succ m' =>
      show (natRange (k + 1) n).drop m' = _
      rw [ih]
      congr 1 <;> omega

lemma drop_replicate_br : ∀ (i n : Nat),
    (List.replicate n brNode).drop i = List.replicate (n - i) brNode := by
  intro i
  induction i with
  | zero => intro n; simp
  | succ i ih =>
    intro n
    cases n with
    | zero => simp
    | succ n =>
      rw [List.replicate_succ]
      show (List.replicate n brNode).drop i = _
      rw [ih n, Nat.succ_sub_succ]

lemma brPositionsAux_replicate : ∀ (n k : Nat),
    brPositionsAux k (List.replicate n brNode) = natRange k n := by
  intro n
  induction n with
  | zero => intro k; rfl
  | succ n ih =>
    intro k
    simp only [List.replicate_succ, brPositionsAux]
    rw [show isBrNode brNode = true from rfl, ih]
    simp [natRange]

lemma nextTagPosAux_replicate : ∀ (m k : Nat),
    nextTagPosAux k (List.replicate m brNode) =
      if m = 0 then none else some k := by
  intro m k
  cases m with
  | zero => rfl
  | succ m => simp [List.replicate_succ, nextTagPosAux, isTagNode, brNode]

lemma nextTagPos_replicate (N i : Nat) :
    nextTagPos (List.replicate N brNode) i =
      if N - (i + 1) = 0 then none else some (i + 1) := by
  rw [nextTagPos, drop_replicate_br, nextTagPosAux_replicate]

lemma groupBrsAux_chain (N : Nat) : ∀ (n k : Nat) (cur : List Nat)
    (acc : List (List Nat)), k + n = N → 1 ≤ k → cur.head? = some (k - 1) →
    groupBrsAux (fun p c => nextTagPos (List.replicate N brNode) p == some c)
        (natRange k n) cur acc =
      acc ++ (if cur.length + n > 1 then [cur.reverse ++ natRange k n] else []) := by
  intro n
  induction n with
  | zero =>
    intro k cur acc hkn hk hhead
    simp [natRange, groupBrsAux]
  | succ m ih =>
    intro k cur acc hkn hk hhead
    cases cur with
    | nil => cases hhead
    | cons prev tail =>
      have hprev : prev = k - 1 := by
        simpa using hhead
      subst hprev
      show groupBrsAux _ (k :: natRange (k + 1) m) ((k - 1) :: tail) acc = _
      have hadj : nextTagPos (List.replicate N brNode) (k - 1) = some k := by
        rw [nextTagPos_replicate]
        have h1 : k - 1 + 1 = k := by omega
        have h2 : ¬ (N - (k - 1 + 1) = 0) := by omega
        rw [h1, if_neg (by omega)]
      rw [groupBrsAux]
      simp only [hadj, beq_self_eq_true, if_true]
      rw [ih (k + 1) (k :: (k - 1) :: tail) acc (by omega) (by omega) (by simp)]
      have hrev : (k :: (k - 1) :: tail).reverse ++ natRange (k + 1) m =
          ((k - 1) :: tail).reverse ++ natRange k (m + 1) := by
        rw [List.reverse_cons, List.append_assoc]
        rfl
      rw [hrev]
      have hlen : (k :: (k - 1) :: tail).length + m =
          ((k - 1) :: tail).length + (m + 1) := by
        simp only [List.length_cons]
        omega
      rw [hlen]

lemma groupBrs_replicate (N : Nat) (h : 2 ≤ N) :
    groupBrs (fun p c => nextTagPos (List.replicate N brNode) p == some c)
        (natRange 0 N) = [natRange 0 N] := by
  obtain ⟨m, rfl⟩ : ∃ m, N = m + 2 := ⟨N - 2, by omega⟩
  rw [show natRange 0 (m + 2) = 0 :: natRange 1 (m + 1) from rfl]
  show groupBrsAux
      (fun p c => nextTagPos (List.replicate (m + 2) brNode) p == some c)
      (natRange 1 (m + 1)) [0] [] = [0 :: natRange 1 (m + 1)]
  rw [groupBrsAux_chain (m + 2) (m + 1) 1 [0] [] (by omega) (by omega) (by simp)]
  have hcond : ([0] : List Nat).length + (m + 1) > 1 := by simp
  rw [if_pos hcond]
  simp [natRange]

lemma removePosAux_nil_rem : ∀ (l : List Node) (k : Nat),
    removePosAux [] k l = l := by
  intro l
  induction l with
  | nil => intro k; rfl
  | cons n rest ih => intro k; simp [removePosAux, containsNat, ih]

lemma removePosAux_all : ∀ (m k : Nat) (rem : List Nat),
    (∀ j, k ≤ j → j < k + m → containsNat rem j = true) →
    removePosAux rem k (List.replicate m brNode) = [] := by
  intro m
  induction m with
  | zero => intro k rem _; rfl
  | succ m ih =>
    intro k rem h
    have hk : containsNat rem k = true := h k (Nat.le_refl k) (by omega)
    rw [List.replicate_succ]
    show (if containsNat rem k then [] else [brNode]) ++ _ = _
    rw [hk]
    simp only [if_true]
    exact ih (k + 1) rem (fun j hj hjm => h j (by omega) (by omega))

/-- C7 amended: with the maximum set to 2, a maximal run of N
consecutive `<br>` siblings with no intervening sibling *elements*
collapses to exactly `min(N, 2)` — intervening text does not break a run
(`find_next_sibling()` skips strings), while runs separated by an
intervening element are capped independently. -/
theorem collapseBrs_caps_runs_at_min :
    (∀ N : Nat, collapseBrs 2 (List.replicate N brNode) =
        List.replicate (min N 2) brNode) ∧
    collapseBrs 2
        [brNode, brNode, brNode, Node.elem "p" [] NodeList.nil,
         brNode, brNode, brNode] =
      [brNode, brNode, Node.elem "p" [] NodeList.nil, brNode, brNode] := by
  constructor
  · intro N
    match N with
    | 0 => decide
    | 1 => decide
    | (m + 2) =>
      have hbr : brPositions (List.replicate (m + 2) brNode) = natRange 0 (m + 2) :=
        brPositionsAux_replicate _ _
      have hne : brPositions (List.replicate (m + 2) brNode) ≠ [] := by
        rw [hbr]; simp [natRange]
      simp only [collapseBrs]
      rw [if_neg hne, hbr, groupBrs_replicate (m + 2) (by omega)]
      have htr : (([natRange 0 (m + 2)].map (fun g => g.drop 2)).flatten) =
          natRange 2 m := by
        simp [natRange_drop]
      rw [htr]
      rw [show min (m + 2) 2 = 2 from by omega]
      rw [show List.replicate (m + 2) brNode =
        brNode :: brNode :: List.replicate m brNode from rfl]
      have h0 : containsNat (natRange 2 m) 0 = false := by
        rw [Bool.eq_false_iff]
        intro hc
        have hm := (containsNat_iff _ _).mp hc
        rw [natRange_mem] at hm
        omega
      have h1 : containsNat (natRange 2 m) 1 = false := by
        rw [Bool.eq_false_iff]
        intro hc
        have hm := (containsNat_iff _ _).mp hc
        rw [natRange_mem] at hm
        omega
      have hall : ∀ j, 2 ≤ j → j < 2 + m →
          containsNat (natRange 2 m) j = true := fun j hj hjm =>
        (containsNat_iff _ _).mpr ((natRange_mem _ _ _).mpr ⟨hj, hjm⟩)
      show (if containsNat (natRange 2 m) 0 then [] else [brNode]) ++
          ((if containsNat (natRange 2 m) 1 then [] else [brNode]) ++
            removePosAux (natRange 2 m) 2 (List.replicate m brNode)) = _
      rw [h0, h1, removePosAux_all m 2 (natRange 2 m) hall]
      simp
  · decide

/-! ## Model of `_check_paging_contents` and `_process_paging`
(`src/extract.py`, the PaginationStitcher)

A fetched next page is abstracted to what the loop reads from it: the
href of its `p.next > a.pagingNav` anchor (`none` both when the anchor
is absent and when it has no string href — the loop exits either way)
and the child nodes of its `div#article-contents, div.article-body`
container (abstract node identifiers; `none` when no container
matches).  The page fetcher maps a URL to `none` when
`fetch_html_text` returns an empty string.  The unbounded `while` loop
becomes fuel-indexed recursion: a `none` result means the fuel was
exhausted, i.e. the source loop would still be running. -/

structure FetchedPage where
  nextHref : Option String
  body : Option (List Nat)
  deriving DecidableEq, Repr

/-- The main document as `_process_paging` touches it: its own URL, its
`p.next > a.pagingNav` href, the children of its content container, and
the number of `div.article-inner-pager` pagination markers (which all
get decomposed at the end; in the synthetic chain the next-page anchor
lives inside that pager element, as on the target site). -/
structure MainDoc where
  url : String
  nextHref : Option String
  body : Option (List Nat)
  innerPagers : Nat
  deriving DecidableEq, Repr

/-- Model of `extract._check_paging_contents` on the three selector
counts: at least one `div#article-contents`, at least one
`div.article-body` and at least one `p.next > a.pagingNav`. -/
def checkPagingContents (divContents divArticleBodies aPagingNav : Nat) : Bool :=
  decide (1 ≤ divContents) && decide (1 ≤ divArticleBodies) &&
    decide (1 ≤ aPagingNav)

/-- The `while next_page_link` loop of `_process_paging`: follow the
current next-link resolved against the *current* page's URL, stop when
the link is gone or the fetch fails (keeping what was collected), and
accumulate each fetched page's content-container children in page
order. -/
def processPagingLoop (fetch : String → Option FetchedPage) :
    Nat → String → Option String → List Nat → Option (List Nat)
  | 0, _, _, _ => none
  | _ + 1, _, none, acc => some acc
  | fuel + 1, currentUrl, some href, acc =>
    match fetch (urljoin currentUrl href) with
    | none => some acc
    | some page =>
      processPagingLoop fetch fuel (urljoin currentUrl href) page.nextHref
        (match page.body with
         | some cs => acc ++ cs
         | none => acc)

/-- Model of `extract._process_paging`: run the loop from the document's
own next-link, append the collected children to the main content
container (when one exists), and decompose every
`div.article-inner-pager`. -/
def processPaging (fetch : String → Option FetchedPage) (fuel : Nat)
    (doc : MainDoc) : Option MainDoc :=
  match processPagingLoop fetch fuel doc.url doc.nextHref [] with
  | none => none
  | some extra =>
    some { doc with body := doc.body.map (fun b => b ++ extra), innerPagers := 0 }

/-- P1 of the synthetic chain: `http://site.example/a/1.html`, content
children 1 and 2, one pager marker, next-link `b/2.html`. -/
def p1Doc : MainDoc :=
  { url := "http://site.example/a/1.html", nextHref := some "b/2.html",
    body := some [1, 2], innerPagers := 1 }

/-- The synthetic chain fetcher: P2 lives at `/a/b/2.html` (so its URL
only resolves from P1's relative link against P1's URL) with children 3
and 4 and a relative next-link `3.html`; P3 lives at `/a/b/3.html` (only
reachable by resolving `3.html` against P2's URL, not against P1's) with
child 5 and no next-link; every other URL fails to fetch. -/
def chainFetch : String → Option FetchedPage := fun u =>
  if u = "http://site.example/a/b/2.html" then
    some { nextHref := some "3.html", body := some [3, 4] }
  else if u = "http://site.example/a/b/3.html" then
    some { nextHref := none, body := some [5] }
  else none

/-- C4: on the synthetic chain P1 → P2 → P3 (P3 has no next link) the
stitching terminates for any fuel ≥ 3, the merged document holds the
content children of P1, P2 and P3 exactly once each in page order, and
no pagination markers remain; the entry condition holds for P1; and
resolving P2's relative link against the *original* URL instead of the
current one would hit a URL that does not fetch, showing each hop is
resolved against the current page's URL. -/
theorem processPaging_chain_merges_in_order (fuel : Nat) (h : 3 ≤ fuel) :
    processPaging chainFetch fuel p1Doc =
      some { url := "http://site.example/a/1.html",
             nextHref := some "b/2.html",
             body := some [1, 2, 3, 4, 5], innerPagers := 0 } ∧
    chainFetch (urljoin "http://site.example/a/1.html" "3.html") = none ∧
    chainFetch (urljoin "http://site.example/a/b/2.html" "3.html") =
      some { nextHref := none, body := some [5] } ∧
    checkPagingContents 1 1 1 = true := by
  obtain ⟨m, rfl⟩ : ∃ m, fuel = m + 3 := ⟨fuel - 3, by omega⟩
  refine ⟨?_, by decide, by decide, by decide⟩
  rfl

/-- Witness for `processPaging_chain_merges_in_order` at fuel 3. -/
theorem processPaging_chain_merges_in_order_witness :
    processPaging chainFetch 3 p1Doc =
      some { url := "http://site.example/a/1.html",
             nextHref := some "b/2.html",
             body := some [1, 2, 3, 4, 5], innerPagers := 0 } :=
  (processPaging_chain_merges_in_order 3 (by decide)).1

/-! ## Model of `_remove_selectors` (`src/extract.py`, the SelectorPruner)

The document is a list of distinct element handles; `soup.select(sel)`
is an abstract selection function re-evaluated against the current
document for each selector, `el.decompose()` removes the handle, and a
decompose that raises is modelled by the `fails` predicate.  The
`except` branch of the source logs the error and executes `return`,
leaving the whole function. -/

/-- The inner `for el in soup.select(selector)` loop: remove each
selected element until one removal raises; the boolean records whether
the `except … return` path was taken. -/
def removeElemsOnce {α : Type} [DecidableEq α] (fails : α → Bool) :
    List α → List α → List α × Bool
  | [], doc => (doc, false)
  | e :: rest, doc =>
    if fails e then (doc, true)
    else removeElemsOnce fails rest (doc.erase e)

/-- Model of `extract._remove_selectors`: selectors are applied in
order, but a removal failure executes `return`, abandoning the rest of
the current selection *and every remaining selector*. -/
def removeSelectors {α σ : Type} [DecidableEq α] (fails : α → Bool)
    (select : List α → σ → List α) : List α → List σ → List α
  | doc, [] => doc
  | doc, s :: rest =>
    match removeElemsOnce fails (select doc s) doc with
    | (doc2, true) => doc2
    | (doc2, false) => removeSelectors fails select doc2 rest

/-- The behaviour the claim describes, stated from its words: a removal
failure on one selector is logged and pruning continues with the next
selector in the list. -/
def removeSelectorsSpec {α σ : Type} [DecidableEq α] (fails : α → Bool)
    (select : List α → σ → List α) : List α → List σ → List α
  | doc, [] => doc
  | doc, s :: rest =>
    removeSelectorsSpec fails select
      (removeElemsOnce fails (select doc s) doc).1 rest

/-- C3 counterexample: with elements `[1, 2]`, selectors `[1, 2]` (each
selecting the equal element), and removal failing exactly on element 1,
the first selector's failure makes `_remove_selectors` return
immediately: element 2 — matched by the remaining selector, whose
removal would succeed — is still present, whereas the behaviour the
claim describes (continue with the next selector) removes it. -/
theorem removeSelectors_abort_cex :
    removeSelectors (fun e => e == 1)
        (fun (doc : List Nat) (s : Nat) => doc.filter (fun e => e == s))
        [1, 2] [1, 2] = [1, 2] ∧
    (([1, 2] : List Nat).filter (fun e => e == 2)) = [2] ∧
    ((fun (e : Nat) => e == 1) 2) = false ∧
    removeSelectorsSpec (fun e => e == 1)
        (fun (doc : List Nat) (s : Nat) => doc.filter (fun e => e == s))
        [1, 2] [1, 2] = [1] := by
  refine ⟨by decide, by decide, by decide, by decide⟩

/-- C3 amended: selector pruning is only partially resilient — selectors
before the failing one are fully applied, but when a removal on the
current selector raises, the function logs and returns at once with the
document as pruned so far, and the remaining selectors are not
applied. -/
theorem removeSelectors_abort_on_failure {α σ : Type} [DecidableEq α]
    (fails : α → Bool) (select : List α → σ → List α) (doc : List α)
    (s : σ) (rest : List σ)
    (h : (removeElemsOnce fails (select doc s) doc).2 = true) :
    removeSelectors fails select doc (s :: rest) =
      (removeElemsOnce fails (select doc s) doc).1 := by
  rcases hx : removeElemsOnce fails (select doc s) doc with ⟨doc2, b⟩
  rw [hx] at h
  simp only at h
  subst h
  simp only [removeSelectors, hx]

/-- Witness for `removeSelectors_abort_on_failure` at the concrete
instance of the counterexample. -/
theorem removeSelectors_abort_on_failure_witness :
    removeSelectors (fun e => e == 1)
        (fun (doc : List Nat) (s : Nat) => doc.filter (fun e => e == s))
        [1, 2] [1, 2] =
      (removeElemsOnce (fun e => e == 1)
        (([1, 2] : List Nat).filter (fun e => e == 1)) [1, 2]).1 :=
  removeSelectors_abort_on_failure (fun e => e == 1)
    (fun (doc : List Nat) (s : Nat) => doc.filter (fun e => e == s))
    [1, 2] 1 [2] (by decide)
